import Mathlib

/-!
Verification of the PhishGuard web application (`app.py`).

The development embeds, as executable Lean functions:
* `cleanText` — the text normalizer `clean_text` (lowercase, remove `http` +
  non-whitespace runs, keep only `[a-z]` and whitespace, collapse whitespace
  runs to a single space, strip the ends);
* `highlightAll` — the suspicious-word highlighting loop of the `/` handler;
* `home` — the scan endpoint handler (GET and POST) over an explicit
  relational state `ScanDB`, parametric in the classifier;
* `gameHandle` / `runGame` — the `/game` handler (GET, POST, reset) over the
  per-session state and the `game_scores` table.

Texts are lists of characters; Python regex classes `\s` and `[a-z]` are
modelled on the ASCII range actually reachable in this program.
-/

namespace PhishGuard

/-! ### Character classes used by `clean_text` -/

/-- The whitespace characters of the regex class used in `clean_text`
(space, tab, newline, carriage return, vertical tab, form feed). -/
def isPySpace (c : Char) : Bool :=
  c = ' ' || c = '\t' || c = '\n' || c = '\r' || c = '\x0b' || c = '\x0c'

/-- Membership in the regex class `[a-z]` (code points 97 to 122). -/
def isLowerAZ (c : Char) : Bool :=
  97 ≤ c.toNat && c.toNat ≤ 122

/-- Characters kept by `re.sub(r"[^a-z\s]", "", text)`. -/
def keepChar (c : Char) : Bool :=
  isLowerAZ c || isPySpace c

/-! ### Step 2 of `clean_text`: `re.sub(r"http\S+", "", text)`

The scan proceeds left to right.  At each position the pattern matches when
the literal `http` is followed by at least one non-whitespace character; a
match consumes `http` and the maximal following run of non-whitespace
characters, and the scan resumes after it; otherwise the scan advances one
character.  The `Bool` flag records whether we are inside the non-whitespace
run of a match currently being consumed. -/

/-- Does the regex `http\S+` match at the head of the list? -/
def startsUrl : List Char → Bool
  | c1 :: c2 :: c3 :: c4 :: c5 :: _ =>
    c1 = 'h' && c2 = 't' && c3 = 't' && c4 = 'p' && !(isPySpace c5)
  | _ => false

/-- Does `http\S+` match anywhere in the list? -/
def hasUrl : List Char → Bool
  | [] => false
  | c :: cs => startsUrl (c :: cs) || hasUrl cs

/-- One left-to-right scan of `re.sub(r"http\S+", "", text)`.  With the flag
set we are consuming the matched non-whitespace run; with the flag clear we
either start a match (consuming `http` and its first non-whitespace
character) or emit one character and advance.  The fuel argument only bounds
the number of steps: every step consumes at least one character, so the
length of the subject, as supplied by `removeUrls`, is always enough. -/
def removeUrlsF : Nat → Bool → List Char → List Char
  | _, _, [] => []
  | 0, _, l => l
  | fuel + 1, true, c :: cs =>
    if isPySpace c then c :: removeUrlsF fuel false cs else removeUrlsF fuel true cs
  | fuel + 1, false, c1 :: c2 :: c3 :: c4 :: c5 :: l5 =>
    if c1 = 'h' && c2 = 't' && c3 = 't' && c4 = 'p' && !(isPySpace c5) then
      removeUrlsF fuel true l5
    else
      c1 :: removeUrlsF fuel false (c2 :: c3 :: c4 :: c5 :: l5)
  | fuel + 1, false, c1 :: l1 => c1 :: removeUrlsF fuel false l1

def removeUrls (l : List Char) : List Char := removeUrlsF l.length false l

/-! ### Step 4: `re.sub(r"\s+", " ", text)`

Each maximal run of whitespace characters becomes one space.  The flag
records whether we are inside a run whose single space was already
emitted. -/

def collapseWsAux : Bool → List Char → List Char
  | _, [] => []
  | inRun, c :: cs =>
    if isPySpace c then
      if inRun then collapseWsAux true cs else ' ' :: collapseWsAux true cs
    else
      c :: collapseWsAux false cs

def collapseWs (l : List Char) : List Char := collapseWsAux false l

/-- Step 5: `text.strip()` — remove whitespace from both ends. -/
def stripChars (l : List Char) : List Char :=
  ((l.dropWhile isPySpace).reverse.dropWhile isPySpace).reverse

/-- The normalizer `clean_text`: lowercase, remove `http\S+` matches, keep
only `[a-z]` and whitespace, collapse whitespace runs, strip the ends. -/
def cleanText (l : List Char) : List Char :=
  stripChars (collapseWs (List.filter keepChar (removeUrls (l.map Char.toLower))))

/-- `clean_text` on `String`s. -/
def cleanTextS (s : String) : String := String.mk (cleanText s.data)

/-! ### Shape predicates for normalized text

Outputs of `cleanText` consist of lower-case letters and single spaces with
no space at either end; these predicates record that shape. -/

/-- A character that can occur in a normalized text. -/
def azOrSpace (c : Char) : Bool := isLowerAZ c || c = ' '

/-- No two adjacent whitespace characters. -/
def NoDouble (l : List Char) : Prop :=
  l.Chain' fun a b => ¬(isPySpace a = true ∧ isPySpace b = true)

/-- The first character, if any, is not whitespace. -/
def noLead : List Char → Bool
  | [] => true
  | c :: _ => !isPySpace c

/-- The last character, if any, is not whitespace. -/
def noTrail (l : List Char) : Bool := noLead l.reverse

/-! ### The scan endpoint `/` -/

/-- One row of the `scans` table. -/
structure ScanRecord where
  id : Nat
  email : String
  result : String
  confidence : Rat
deriving DecidableEq

/-- The `scans` table: rows in insertion order, next `AUTOINCREMENT` id. -/
structure ScanDB where
  rows : List ScanRecord
  nextId : Nat
deriving DecidableEq

def scanDB0 : ScanDB := { rows := [], nextId := 1 }

/-- `INSERT INTO scans (email, result, confidence) VALUES (?, ?, ?)`. -/
def insertScan (db : ScanDB) (email result : String) (confidence : Rat) : ScanDB :=
  { rows := db.rows ++ [{ id := db.nextId, email := email, result := result,
                          confidence := confidence }],
    nextId := db.nextId + 1 }

/-- First value bound to a key in the submitted form data, if any. -/
def lookupForm (form : List (String × String)) (key : String) : Option String :=
  match form with
  | [] => none
  | (k, v) :: rest => if k = key then some v else lookupForm rest key

/-- Accessing a missing key of `request.form` raises `BadRequestKeyError`,
answered as an HTTP 400 response. -/
inductive HttpError where
  | badRequestKeyError
deriving DecidableEq

/-- The values handed to `render_template("index.html", ...)`. -/
structure HomeRender where
  result : Option String
  confidence : Option Rat
  emailText : String
  highlightedText : String
deriving DecidableEq

inductive HttpMethod where
  | get
  | post
deriving DecidableEq

/-- The apostrophe character, used in the highlight markup. -/
def quoteChar : Char := Char.ofNat 39

/-- The opening tag of the highlight markup, `<span class=` followed by
the quoted word `highlight` and `>`. -/
def spanOpen : List Char :=
  "<span class=".data ++ [quoteChar] ++ "highlight".data ++ [quoteChar] ++ ">".data

def spanClose : List Char := "</span>".data

/-- Wrap a word in the highlight span markup. -/
def wrapSpan (w : List Char) : List Char := spanOpen ++ w ++ spanClose

/-- Python `str.capitalize()` on the words involved: first character upper
case, the rest lower case. -/
def pyCapitalize : List Char → List Char
  | [] => []
  | c :: cs => c.toUpper :: cs.map Char.toLower

/-- Python `str.replace` for a non-empty pattern: replace every occurrence,
scanning left to right without overlap.  The fuel argument bounds the number
of scan steps; `replaceAll` supplies the length of the subject, which
suffices because every step consumes at least one character. -/
def replaceAllF : Nat → List Char → List Char → List Char → List Char
  | 0, s, _, _ => s
  | fuel + 1, s, pat, rep =>
    match s with
    | [] => []
    | c :: cs =>
      if pat.isPrefixOf (c :: cs) then
        rep ++ replaceAllF fuel (List.drop pat.length (c :: cs)) pat rep
      else
        c :: replaceAllF fuel cs pat rep

def replaceAll (s pat rep : List Char) : List Char := replaceAllF s.length s pat rep

/-- The fixed suspicious-word list of the `/` handler. -/
def suspiciousWords : List (List Char) :=
  ["urgent".data, "verify".data, "click".data, "password".data,
   "bank".data, "account".data, "login".data, "confirm".data]

/-- One iteration of the highlighting loop: wrap the lower-case form, then
the capitalized form, of one suspicious word. -/
def highlightWord (t w : List Char) : List Char :=
  replaceAll (replaceAll t w (wrapSpan w)) (pyCapitalize w) (wrapSpan (pyCapitalize w))

/-- The whole highlighting loop over the suspicious-word list. -/
def highlightAll (t : List Char) : List Char :=
  suspiciousWords.foldl highlightWord t

def highlightAllS (s : String) : String := String.mk (highlightAll s.data)

/-- The `/` handler, parametric in the fitted classifier `clf`, which maps a
(normalized) text to the predicted label and the confidence percentage.  On
GET the initial `None`/empty values are rendered and the store is untouched.
On POST the submitted text is normalized, classified, inserted as one
`scans` row, and highlighted when the label is `FRAUD`; a form without an
`email` field raises `BadRequestKeyError`. -/
def home (clf : String → String × Rat) (method : HttpMethod)
    (form : List (String × String)) (db : ScanDB) :
    Except HttpError (HomeRender × ScanDB) :=
  match method with
  | .get =>
    .ok ({ result := none, confidence := none, emailText := "",
           highlightedText := "" }, db)
  | .post =>
    match lookupForm form "email" with
    | none => .error .badRequestKeyError
    | some emailText =>
      let cleaned := cleanTextS emailText
      let result := (clf cleaned).1
      let confidence := (clf cleaned).2
      let db2 := insertScan db emailText result confidence
      let highlighted :=
        if result = "FRAUD" then highlightAllS emailText else emailText
      .ok ({ result := some result, confidence := some confidence,
             emailText := emailText, highlightedText := highlighted }, db2)

/-- Submitting one email to the scan endpoint, keeping the resulting store. -/
def scanSubmit (clf : String → String × Rat) (db : ScanDB) (e : String) : ScanDB :=
  match home clf .post [("email", e)] db with
  | .ok (_, db2) => db2
  | .error _ => db

/-- A whole sequence of scan submissions. -/
def runScans (clf : String → String × Rat) (emails : List String) (db : ScanDB) : ScanDB :=
  emails.foldl (scanSubmit clf) db

/-- Insertion into a list sorted by descending id. -/
def insertByIdDesc (r : ScanRecord) : List ScanRecord → List ScanRecord
  | [] => [r]
  | s :: rest => if s.id ≤ r.id then r :: s :: rest else s :: insertByIdDesc r rest

/-- `ORDER BY id DESC` as a sort of the stored rows. -/
def orderByIdDesc : List ScanRecord → List ScanRecord
  | [] => []
  | r :: rest => insertByIdDesc r (orderByIdDesc rest)

/-- The `/history` listing: `SELECT email, result, confidence FROM scans
ORDER BY id DESC`. -/
def historyQuery (db : ScanDB) : List (String × String × Rat) :=
  (orderByIdDesc db.rows).map fun r => (r.email, r.result, r.confidence)

/-! ### The game endpoint `/game` -/

/-- The server-held session counters. -/
structure GameState where
  score : Nat
  total : Nat
deriving DecidableEq

/-- One row of the `game_scores` table. -/
structure GameRecord where
  id : Nat
  score : Nat
  total : Nat
  level : String
deriving DecidableEq

structure GameDB where
  rows : List GameRecord
  nextId : Nat
deriving DecidableEq

def gameDB0 : GameDB := { rows := [], nextId := 1 }

def insertGame (db : GameDB) (score total : Nat) (level : String) : GameDB :=
  { rows := db.rows ++ [{ id := db.nextId, score := score, total := total,
                          level := level }],
    nextId := db.nextId + 1 }

/-- The level derivation of the `/game` handler. -/
def levelOf (score : Nat) : String :=
  if score < 3 then "Beginner" else if score < 6 then "Intermediate" else "Expert"

/-- A request to the game: a GET, a POST whose form carries the submitted
`choice` and round-tripped `correct` fields, or the `/reset-game` action. -/
inductive GameReq where
  | get
  | post (choice correct : String)
  | resetGame
deriving DecidableEq

/-- The `/game` handler (and `/reset-game`).  A missing session is
initialized to `{score := 0, total := 0}`.  A POST increments `total`, and
`score` exactly when `choice = correct`.  Both GET and POST insert one
snapshot row `(score, total, level)`; reset clears the session and inserts
nothing. -/
def gameHandle (sess : Option GameState) (req : GameReq) (db : GameDB) :
    Option GameState × GameDB :=
  match req with
  | .resetGame => (none, db)
  | .get =>
    let st := sess.getD { score := 0, total := 0 }
    (some st, insertGame db st.score st.total (levelOf st.score))
  | .post choice correct =>
    let st := sess.getD { score := 0, total := 0 }
    let st2 : GameState :=
      { score := if choice = correct then st.score + 1 else st.score,
        total := st.total + 1 }
    (some st2, insertGame db st2.score st2.total (levelOf st2.score))

/-- A whole sequence of game requests. -/
def runGame : Option GameState → List GameReq → GameDB → Option GameState × GameDB
  | sess, [], db => (sess, db)
  | sess, r :: rs, db =>
    let out := gameHandle sess r db
    runGame out.1 rs out.2

/-! ### Concrete instances used by counterexamples and witnesses -/

/-- A constant classifier, usable wherever the claim is independent of the
trained model. -/
def clfSafe : String → String × Rat := fun _ => ("SAFE", 50)

/-- A constant classifier predicting `FRAUD`. -/
def clfFraud : String → String × Rat := fun _ => ("FRAUD", 90)

/-! ## Facts about the normalizer -/

theorem hasUrl_tail (c : Char) (cs : List Char) (h : hasUrl (c :: cs) = false) :
    hasUrl cs = false := by
  simp only [hasUrl, Bool.or_eq_false_iff] at h
  exact h.2

theorem hasUrl_head (c : Char) (cs : List Char) (h : hasUrl (c :: cs) = false) :
    startsUrl (c :: cs) = false := by
  simp only [hasUrl, Bool.or_eq_false_iff] at h
  exact h.1

theorem removeUrlsF_nil (n : Nat) (b : Bool) : removeUrlsF n b [] = [] := by
  cases n <;> cases b <;> rfl

theorem removeUrlsF_succ_nomatch (n : Nat) (c1 : Char) (l1 : List Char)
    (h : startsUrl (c1 :: l1) = false) :
    removeUrlsF (n + 1) false (c1 :: l1) = c1 :: removeUrlsF n false l1 := by
  match l1 with
  | [] => rfl
  | [c2] => rfl
  | [c2, c3] => rfl
  | [c2, c3, c4] => rfl
  | c2 :: c3 :: c4 :: c5 :: l5 =>
    have hcond :
        (c1 = 'h' && c2 = 't' && c3 = 't' && c4 = 'p' && !(isPySpace c5)) = false := by
      simpa [startsUrl] using h
    simp [removeUrlsF, hcond]

theorem removeUrlsF_id :
    ∀ (fuel : Nat) (l : List Char), l.length ≤ fuel → hasUrl l = false →
      removeUrlsF fuel false l = l := by
  intro fuel
  induction fuel with
  | zero =>
    intro l hl _
    rcases l with _ | ⟨c, cs⟩
    · rfl
    · simp at hl
  | succ n ih =>
    intro l hl hu
    rcases l with _ | ⟨c1, l1⟩
    · exact removeUrlsF_nil _ _
    · rw [removeUrlsF_succ_nomatch n c1 l1 (hasUrl_head _ _ hu)]
      have hlen : l1.length ≤ n := by simp at hl; omega
      rw [ih l1 hlen (hasUrl_tail _ _ hu)]

theorem removeUrls_id (l : List Char) (h : hasUrl l = false) : removeUrls l = l :=
  removeUrlsF_id l.length l (Nat.le_refl _) h

theorem azOrSpace_toLower (c : Char) (h : azOrSpace c = true) : c.toLower = c := by
  simp only [azOrSpace, isLowerAZ, Bool.or_eq_true, Bool.and_eq_true,
    decide_eq_true_eq] at h
  rcases h with ⟨h1, h2⟩ | rfl
  · unfold Char.toLower
    rw [if_neg (by omega)]
  · decide

theorem keep_of_azOrSpace (c : Char) (h : azOrSpace c = true) : keepChar c = true := by
  simp only [azOrSpace, Bool.or_eq_true, decide_eq_true_eq] at h
  rcases h with h | rfl
  · simp [keepChar, h]
  · decide

theorem space_char_eq (c : Char) (h : azOrSpace c = true) (hs : isPySpace c = true) :
    c = ' ' := by
  simp only [isPySpace, Bool.or_eq_true, decide_eq_true_eq] at hs
  rcases hs with ((((rfl | rfl) | rfl) | rfl) | rfl) | rfl
  · rfl
  all_goals exact absurd h (by decide)

theorem collapseWsAux_space_false {c : Char} (cs : List Char) (h : isPySpace c = true) :
    collapseWsAux false (c :: cs) = ' ' :: collapseWsAux true cs := by
  simp [collapseWsAux, h]

theorem collapseWsAux_space_true {c : Char} (cs : List Char) (h : isPySpace c = true) :
    collapseWsAux true (c :: cs) = collapseWsAux true cs := by
  simp [collapseWsAux, h]

theorem collapseWsAux_nonspace {c : Char} (b : Bool) (cs : List Char)
    (h : isPySpace c = false) :
    collapseWsAux b (c :: cs) = c :: collapseWsAux false cs := by
  simp [collapseWsAux, h]

theorem collapse_head_not_space :
    ∀ (l : List Char) (c : Char) (cs : List Char),
      collapseWsAux true l = c :: cs → isPySpace c = false := by
  intro l
  induction l with
  | nil => intro c cs h; simp [collapseWsAux] at h
  | cons d ds ih =>
    intro c cs h
    cases hd : isPySpace d
    · rw [collapseWsAux_nonspace true ds hd] at h
      injection h with h1 _
      rw [← h1]
      exact hd
    · rw [collapseWsAux_space_true ds hd] at h
      exact ih c cs h

theorem noDouble_collapse (l : List Char) : ∀ b, NoDouble (collapseWsAux b l) := by
  induction l with
  | nil => intro b; simp [collapseWsAux, NoDouble]
  | cons d ds ih =>
    intro b
    cases hd : isPySpace d
    · rw [collapseWsAux_nonspace b ds hd, NoDouble, List.chain'_cons']
      refine ⟨?_, ih false⟩
      intro y _
      simp [hd]
    · cases b
      · rw [collapseWsAux_space_false ds hd, NoDouble, List.chain'_cons']
        refine ⟨?_, ih true⟩
        intro y hy
        rcases he : collapseWsAux true ds with _ | ⟨z, zs⟩
        · rw [he] at hy; simp at hy
        · rw [he] at hy
          simp at hy
          subst hy
          have hz := collapse_head_not_space ds z zs he
          simp [hz]
      · rw [collapseWsAux_space_true ds hd]
        exact ih true

theorem azOrSpace_of_mem_collapse :
    ∀ (l : List Char) (b : Bool) (c : Char), (∀ x ∈ l, keepChar x = true) →
      c ∈ collapseWsAux b l → azOrSpace c = true := by
  intro l
  induction l with
  | nil => intro b c _ h; simp [collapseWsAux] at h
  | cons d ds ih =>
    intro b c hall hc
    have htail : ∀ x ∈ ds, keepChar x = true :=
      fun x hx => hall x (List.mem_cons_of_mem _ hx)
    cases hd : isPySpace d
    · rw [collapseWsAux_nonspace b ds hd] at hc
      rcases List.mem_cons.1 hc with rfl | hc2
      · have hk := hall c (List.mem_cons_self _ _)
        simp only [keepChar, Bool.or_eq_true, hd, Bool.false_eq_true, or_false] at hk
        simp [azOrSpace, hk]
      · exact ih false c htail hc2
    · cases b
      · rw [collapseWsAux_space_false ds hd] at hc
        rcases List.mem_cons.1 hc with rfl | hc2
        · decide
        · exact ih true c htail hc2
      · rw [collapseWsAux_space_true ds hd] at hc
        exact ih true c htail hc

theorem mem_stripChars {l : List Char} {c : Char} (h : c ∈ stripChars l) : c ∈ l := by
  unfold stripChars at h
  rw [List.mem_reverse] at h
  have h2 : c ∈ (l.dropWhile isPySpace).reverse := List.dropWhile_subset _ h
  rw [List.mem_reverse] at h2
  exact List.dropWhile_subset _ h2

theorem noDouble_reverse {l : List Char} (h : NoDouble l) : NoDouble l.reverse := by
  rw [NoDouble, List.chain'_reverse]
  exact h.imp fun a b hab => fun hx => hab ⟨hx.2, hx.1⟩

theorem noDouble_stripChars {l : List Char} (h : NoDouble l) : NoDouble (stripChars l) := by
  unfold stripChars
  exact noDouble_reverse
    (List.Chain'.suffix (noDouble_reverse (List.Chain'.suffix h (List.dropWhile_suffix _)))
      (List.dropWhile_suffix _))

theorem noLead_of_head? (l : List Char)
    (h : ∀ c, l.head? = some c → isPySpace c = false) : noLead l = true := by
  rcases l with _ | ⟨c, cs⟩
  · rfl
  · simp [noLead, h c rfl]

theorem noLead_dropWhile (l : List Char) : noLead (l.dropWhile isPySpace) = true := by
  apply noLead_of_head?
  intro c hc
  have h2 := List.head?_dropWhile_not isPySpace l
  rw [hc] at h2
  exact h2

theorem noLead_stripChars (l : List Char) : noLead (stripChars l) = true := by
  unfold stripChars
  apply noLead_of_head?
  intro c hc
  rw [List.head?_reverse] at hc
  obtain ⟨t, ht⟩ := List.dropWhile_suffix (l := (l.dropWhile isPySpace).reverse) isPySpace
  rcases hr : (l.dropWhile isPySpace).reverse.dropWhile isPySpace with _ | ⟨d, ds⟩
  · rw [hr] at hc; simp at hc
  · rw [hr] at ht hc
    have h1 : ((l.dropWhile isPySpace).reverse).getLast? = some c := by
      rw [← ht, List.getLast?_append, hc]
      rfl
    rw [List.getLast?_reverse] at h1
    have h2 := List.head?_dropWhile_not isPySpace l
    rw [h1] at h2
    exact h2

theorem noTrail_stripChars (l : List Char) : noTrail (stripChars l) = true := by
  unfold noTrail stripChars
  rw [List.reverse_reverse]
  exact noLead_dropWhile _

theorem map_toLower_id {l : List Char} (h : ∀ c ∈ l, azOrSpace c = true) :
    l.map Char.toLower = l := by
  induction l with
  | nil => rfl
  | cons c cs ih =>
    rw [List.map_cons, azOrSpace_toLower c (h c (List.mem_cons_self _ _)),
      ih fun x hx => h x (List.mem_cons_of_mem _ hx)]

theorem filter_keep_id {l : List Char} (h : ∀ c ∈ l, azOrSpace c = true) :
    List.filter keepChar l = l := by
  rw [List.filter_eq_self]
  exact fun c hc => keep_of_azOrSpace c (h c hc)

theorem collapse_id :
    ∀ l : List Char, (∀ c ∈ l, azOrSpace c = true) → NoDouble l →
      (collapseWsAux false l = l ∧ (noLead l = true → collapseWsAux true l = l)) := by
  intro l
  induction l with
  | nil => intro _ _; exact ⟨rfl, fun _ => rfl⟩
  | cons c cs ih =>
    intro hall hnd
    have hcs := ih (fun x hx => hall x (List.mem_cons_of_mem _ hx)) (List.Chain'.tail hnd)
    cases hc : isPySpace c
    · constructor
      · rw [collapseWsAux_nonspace false cs hc, hcs.1]
      · intro _
        rw [collapseWsAux_nonspace true cs hc, hcs.1]
    · have hceq : c = ' ' := space_char_eq c (hall c (List.mem_cons_self _ _)) hc
      constructor
      · rw [collapseWsAux_space_false cs hc]
        subst hceq
        rcases cs with _ | ⟨d, ds⟩
        · rfl
        · have hd : isPySpace d = false := by
            have h1 := (List.chain'_cons.1 hnd).1
            cases hdd : isPySpace d
            · rfl
            · exact absurd ⟨by decide, hdd⟩ h1
          rw [hcs.2 (by simp [noLead, hd])]
      · intro hl
        rw [noLead, hc] at hl
        simp at hl

theorem dropWhile_eq_self_of_noLead {l : List Char} (h : noLead l = true) :
    l.dropWhile isPySpace = l := by
  rcases l with _ | ⟨c, cs⟩
  · rfl
  · simp only [noLead, Bool.not_eq_eq_eq_not, Bool.not_true] at h
    rw [List.dropWhile_cons]
    simp [h]

theorem strip_id {l : List Char} (h1 : noLead l = true) (h2 : noTrail l = true) :
    stripChars l = l := by
  unfold stripChars
  rw [dropWhile_eq_self_of_noLead h1]
  unfold noTrail at h2
  rw [dropWhile_eq_self_of_noLead h2, List.reverse_reverse]

theorem cleanText_azOrSpace (s : List Char) : ∀ c ∈ cleanText s, azOrSpace c = true := by
  intro c hc
  unfold cleanText at hc
  have hc2 := mem_stripChars hc
  unfold collapseWs at hc2
  exact azOrSpace_of_mem_collapse _ false c (fun x hx => List.of_mem_filter hx) hc2

theorem cleanText_noDouble (s : List Char) : NoDouble (cleanText s) := by
  unfold cleanText collapseWs
  exact noDouble_stripChars (noDouble_collapse _ false)

theorem cleanText_noLead (s : List Char) : noLead (cleanText s) = true :=
  noLead_stripChars _

theorem cleanText_noTrail (s : List Char) : noTrail (cleanText s) = true :=
  noTrail_stripChars _

theorem cleanText_fixed (t : List Char) (hall : ∀ c ∈ t, azOrSpace c = true)
    (hnd : NoDouble t) (hlead : noLead t = true) (htrail : noTrail t = true)
    (hurl : hasUrl t = false) : cleanText t = t := by
  unfold cleanText
  rw [map_toLower_id hall, removeUrls_id t hurl, filter_keep_id hall]
  unfold collapseWs
  rw [(collapse_id t hall hnd).1]
  exact strip_id hlead htrail

/-! ## Claim C1 -/

/-- C1, counterexample: `clean_text` is not idempotent on every string.  On
`htt!px` the first pass removes the `!` after the URL pass has already run,
leaving `httpx`; the second pass then removes `httpx` as a URL match. -/
theorem c1_clean_text_not_idempotent :
    ¬(cleanTextS (cleanTextS "htt!px") = cleanTextS "htt!px") := by decide

/-- C1 (amended): the text normalizer is idempotent on every string whose
normalized form contains no occurrence of `http` followed by a
non-whitespace character; in general a second pass can remove further text
left behind by the character filter (see the counterexample). -/
theorem c1_clean_text_idempotent_of_no_url (s : String)
    (h : hasUrl (cleanTextS s).data = false) :
    cleanTextS (cleanTextS s) = cleanTextS s := by
  have ht := cleanText_fixed (cleanText s.data) (cleanText_azOrSpace s.data)
    (cleanText_noDouble s.data) (cleanText_noLead s.data) (cleanText_noTrail s.data) h
  unfold cleanTextS
  exact congrArg String.mk ht

/-- C1, witness: the amended idempotence at a concrete input. -/
theorem c1_clean_text_idempotent_witness :
    hasUrl (cleanTextS "Hello World!").data = false ∧
      cleanTextS (cleanTextS "Hello World!") = cleanTextS "Hello World!" :=
  ⟨by decide, c1_clean_text_idempotent_of_no_url "Hello World!" (by decide)⟩

/-! ## The scan endpoint -/

theorem home_post_email (clf : String → String × Rat) (db : ScanDB) (e : String) :
    home clf .post [("email", e)] db =
      .ok ({ result := some (clf (cleanTextS e)).1,
             confidence := some (clf (cleanTextS e)).2,
             emailText := e,
             highlightedText :=
               if (clf (cleanTextS e)).1 = "FRAUD" then highlightAllS e else e },
           insertScan db e (clf (cleanTextS e)).1 (clf (cleanTextS e)).2) := rfl

/-! ## Claim C2 -/

/-- C2, counterexample: a POST to `/` whose form data lacks the `email`
field is not handled like a submission of the empty string: the form access
raises `BadRequestKeyError`, the request is rejected, and no row is
inserted. -/
theorem c2_missing_email_counterexample :
    home clfSafe .post [] scanDB0 = .error .badRequestKeyError ∧
      home clfSafe .post [] scanDB0 ≠ home clfSafe .post [("email", "")] scanDB0 := by
  constructor
  · rfl
  · exact fun hcontra => Except.noConfusion hcontra

/-- C2 (amended): a POST whose `email` field is present but empty is not
rejected and proceeds through normalize, classify, and persist like any
other submission; a POST whose form data has no `email` field is answered
with `BadRequestKeyError` and changes nothing. -/
theorem c2_empty_email_ok (clf : String → String × Rat) (db : ScanDB)
    (form : List (String × String)) (hmiss : lookupForm form "email" = none) :
    home clf .post [("email", "")] db =
      .ok ({ result := some (clf (cleanTextS "")).1,
             confidence := some (clf (cleanTextS "")).2,
             emailText := "",
             highlightedText :=
               if (clf (cleanTextS "")).1 = "FRAUD" then highlightAllS "" else "" },
           insertScan db "" (clf (cleanTextS "")).1 (clf (cleanTextS "")).2) ∧
      home clf .post form db = .error .badRequestKeyError := by
  constructor
  · exact home_post_email clf db ""
  · unfold home
    rw [hmiss]

/-- C2, witness: the amended behavior at a concrete classifier, store and
form. -/
theorem c2_empty_email_witness :
    home clfSafe .post [("email", "")] scanDB0 =
      .ok ({ result := some (clfSafe (cleanTextS "")).1,
             confidence := some (clfSafe (cleanTextS "")).2,
             emailText := "",
             highlightedText :=
               if (clfSafe (cleanTextS "")).1 = "FRAUD" then highlightAllS "" else "" },
           insertScan scanDB0 "" (clfSafe (cleanTextS "")).1 (clfSafe (cleanTextS "")).2) ∧
      home clfSafe .post [] scanDB0 = .error .badRequestKeyError :=
  c2_empty_email_ok clfSafe scanDB0 [] rfl

/-! ## Claim C9 -/

/-- C9: a GET to `/` leaves the persistence store unchanged and renders
with `None` result, `None` confidence, and empty submitted and highlighted
texts. -/
theorem c9_home_get (clf : String → String × Rat) (form : List (String × String))
    (db : ScanDB) :
    home clf .get form db =
      .ok ({ result := none, confidence := none, emailText := "",
             highlightedText := "" }, db) := rfl

/-! ## Claim C3 -/

/-- C3: for every scan POST the rendered page carries the original
submitted text; the highlighted text is the untouched original unless the
predicted label is `FRAUD`, in which case it is the highlighting loop
applied to the original (non-normalized) text.  On a concrete input the
loop wraps the lower-case occurrence `account` and the capitalized
occurrence `Verify` while leaving the all-caps occurrence `VERIFY`
unwrapped. -/
theorem c3_highlighting :
    (∀ (clf : String → String × Rat) (db : ScanDB) (e : String)
        (r : HomeRender) (db2 : ScanDB),
      home clf .post [("email", e)] db = .ok (r, db2) →
        r.emailText = e ∧
        ((clf (cleanTextS e)).1 = "FRAUD" → r.highlightedText = highlightAllS e) ∧
        ((clf (cleanTextS e)).1 ≠ "FRAUD" → r.highlightedText = e)) ∧
    highlightAllS "VERIFY and Verify your account now" =
      String.mk ("VERIFY and ".data ++ wrapSpan "Verify".data ++ " your ".data ++
        wrapSpan "account".data ++ " now".data) := by
  constructor
  · intro clf db e r db2 h
    rw [home_post_email] at h
    injection h with h1
    rw [Prod.mk.injEq] at h1
    obtain ⟨h2, -⟩ := h1
    rw [← h2]
    refine ⟨rfl, ?_, ?_⟩
    · intro hF
      simp only [hF, if_pos]
    · intro hF
      simp only [if_neg hF]
  · decide

/-- C3, witness: the FRAUD branch of the highlighting guarantee at a
concrete classifier and input. -/
theorem c3_highlighting_witness :
    ({ result := some "FRAUD", confidence := some 90, emailText := "Verify",
       highlightedText := highlightAllS "Verify" } : HomeRender).highlightedText =
      highlightAllS "Verify" :=
  (c3_highlighting.1 clfFraud scanDB0 "Verify"
    { result := some "FRAUD", confidence := some 90, emailText := "Verify",
      highlightedText := highlightAllS "Verify" }
    (insertScan scanDB0 "Verify" "FRAUD" 90) (by rfl)).2.1 (by rfl)

/-! ## The game endpoint -/

theorem gameHandle_inv (sess : Option GameState) (req : GameReq) (db : GameDB)
    (hs : ∀ st, sess = some st → st.score ≤ st.total)
    (hd : ∀ r ∈ db.rows, r.score ≤ r.total) :
    (∀ st, (gameHandle sess req db).1 = some st → st.score ≤ st.total) ∧
      (∀ r ∈ (gameHandle sess req db).2.rows, r.score ≤ r.total) := by
  have hst : (sess.getD { score := 0, total := 0 }).score ≤
      (sess.getD { score := 0, total := 0 }).total := by
    cases sess with
    | none => exact Nat.le_refl 0
    | some st => exact hs st rfl
  cases req with
  | resetGame =>
    refine ⟨?_, hd⟩
    intro st h
    simp [gameHandle] at h
  | get =>
    constructor
    · intro st h
      simp only [gameHandle, Option.some.injEq] at h
      rw [← h]
      exact hst
    · intro r hr
      simp only [gameHandle, insertGame] at hr
      rcases List.mem_append.1 hr with hr1 | hr2
      · exact hd r hr1
      · simp at hr2
        rw [hr2]
        exact hst
  | post choice correct =>
    have hst2 : (if choice = correct then
          (sess.getD { score := 0, total := 0 }).score + 1
        else (sess.getD { score := 0, total := 0 }).score) ≤
        (sess.getD { score := 0, total := 0 }).total + 1 := by
      split <;> omega
    constructor
    · intro st h
      simp only [gameHandle, Option.some.injEq] at h
      rw [← h]
      exact hst2
    · intro r hr
      simp only [gameHandle, insertGame] at hr
      rcases List.mem_append.1 hr with hr1 | hr2
      · exact hd r hr1
      · simp at hr2
        rw [hr2]
        exact hst2

theorem runGame_inv :
    ∀ (reqs : List GameReq) (sess : Option GameState) (db : GameDB),
      (∀ st, sess = some st → st.score ≤ st.total) →
      (∀ r ∈ db.rows, r.score ≤ r.total) →
      (∀ st, (runGame sess reqs db).1 = some st → st.score ≤ st.total) ∧
        (∀ r ∈ (runGame sess reqs db).2.rows, r.score ≤ r.total) := by
  intro reqs
  induction reqs with
  | nil => intro sess db hs hd; exact ⟨hs, hd⟩
  | cons q qs ih =>
    intro sess db hs hd
    have hstep := gameHandle_inv sess q db hs hd
    exact ih (gameHandle sess q db).1 (gameHandle sess q db).2 hstep.1 hstep.2

theorem gameHandle_level (sess : Option GameState) (req : GameReq) (db : GameDB)
    (hd : ∀ r ∈ db.rows, r.level = levelOf r.score) :
    ∀ r ∈ (gameHandle sess req db).2.rows, r.level = levelOf r.score := by
  cases req with
  | resetGame => exact hd
  | get =>
    intro r hr
    simp only [gameHandle, insertGame] at hr
    rcases List.mem_append.1 hr with hr1 | hr2
    · exact hd r hr1
    · simp at hr2
      rw [hr2]
  | post choice correct =>
    intro r hr
    simp only [gameHandle, insertGame] at hr
    rcases List.mem_append.1 hr with hr1 | hr2
    · exact hd r hr1
    · simp at hr2
      rw [hr2]

theorem runGame_level :
    ∀ (reqs : List GameReq) (sess : Option GameState) (db : GameDB),
      (∀ r ∈ db.rows, r.level = levelOf r.score) →
      ∀ r ∈ (runGame sess reqs db).2.rows, r.level = levelOf r.score := by
  intro reqs
  induction reqs with
  | nil => intro sess db hd; exact hd
  | cons q qs ih =>
    intro sess db hd
    exact ih (gameHandle sess q db).1 (gameHandle sess q db).2
      (gameHandle_level sess q db hd)

/-! ## Claim C4 -/

/-- C4: the level shown and persisted by the game endpoint is the pure
function `levelOf` of the score alone, with `score < 3` Beginner,
`3 ≤ score < 6` Intermediate, `6 ≤ score` Expert (no upper cap), the
claimed boundary values, and the GET snapshot row carrying
`levelOf score`. -/
theorem c4_level_thresholds :
    (∀ s : Nat,
      (s < 3 → levelOf s = "Beginner") ∧
      (3 ≤ s → s < 6 → levelOf s = "Intermediate") ∧
      (6 ≤ s → levelOf s = "Expert")) ∧
    levelOf 2 = "Beginner" ∧ levelOf 3 = "Intermediate" ∧
    levelOf 5 = "Intermediate" ∧ levelOf 6 = "Expert" ∧
    (∀ (sess : Option GameState) (db : GameDB),
      (gameHandle sess GameReq.get db).2.rows =
        db.rows ++ [{ id := db.nextId,
                      score := (sess.getD { score := 0, total := 0 }).score,
                      total := (sess.getD { score := 0, total := 0 }).total,
                      level := levelOf (sess.getD { score := 0, total := 0 }).score }]) := by
  refine ⟨?_, rfl, rfl, rfl, rfl, fun sess db => rfl⟩
  intro s
  refine ⟨?_, ?_, ?_⟩
  · intro h
    unfold levelOf
    rw [if_pos h]
  · intro h1 h2
    unfold levelOf
    rw [if_neg (by omega), if_pos h2]
  · intro h
    unfold levelOf
    rw [if_neg (by omega), if_neg (by omega)]

/-- C4, witness: the boundary facts applied at concrete scores, including a
score above any cap. -/
theorem c4_level_witness : levelOf 2 = "Beginner" ∧ levelOf 100 = "Expert" :=
  ⟨(c4_level_thresholds.1 2).1 (by omega), (c4_level_thresholds.1 100).2.2 (by omega)⟩

/-! ## Claim C5 -/

/-- C5: starting from the initial session `{score := 0, total := 0}`, any
sequence of game POSTs keeps the invariant `score ≤ total` (scores are
natural numbers, so `0 ≤ score` throughout), and every `game_scores` row
inserted along the way satisfies `score ≤ total`. -/
theorem c5_game_invariant (posts : List (String × String)) :
    (∀ st, (runGame (some { score := 0, total := 0 })
        (posts.map fun p => GameReq.post p.1 p.2) gameDB0).1 = some st →
      st.score ≤ st.total) ∧
    (∀ r ∈ (runGame (some { score := 0, total := 0 })
        (posts.map fun p => GameReq.post p.1 p.2) gameDB0).2.rows,
      r.score ≤ r.total) := by
  apply runGame_inv
  · intro st h
    cases h
    exact Nat.le_refl 0
  · intro r hr
    simp [gameDB0] at hr

/-- C5, witness: the invariant at the session reached by one correctly
answered POST. -/
theorem c5_game_invariant_witness :
    ({ score := 1, total := 1 } : GameState).score ≤
      ({ score := 1, total := 1 } : GameState).total :=
  (c5_game_invariant [("FRAUD", "FRAUD")]).1 { score := 1, total := 1 } rfl

/-! ## Claim C8 -/

/-- C8: a GET to `/game` on an already-initialized session returns the
session unchanged and appends exactly one `game_scores` snapshot row
carrying the current score, total, and derived level. -/
theorem c8_game_get_frame (st : GameState) (db : GameDB) :
    gameHandle (some st) GameReq.get db =
      (some st, insertGame db st.score st.total (levelOf st.score)) ∧
    (insertGame db st.score st.total (levelOf st.score)).rows =
      db.rows ++ [{ id := db.nextId, score := st.score, total := st.total,
                    level := levelOf st.score }] :=
  ⟨rfl, rfl⟩

/-! ## Claim C10 -/

/-- C10: every `game_scores` row ever inserted by any sequence of game
requests is internally consistent: its `level` field is `levelOf` of its
own `score` field. -/
theorem c10_snapshot_consistent (sess : Option GameState) (reqs : List GameReq) :
    ∀ r ∈ (runGame sess reqs gameDB0).2.rows, r.level = levelOf r.score := by
  apply runGame_level
  intro r hr
  simp [gameDB0] at hr

/-- C10, witness: consistency of the row inserted by an initial GET. -/
theorem c10_snapshot_witness :
    ({ id := 1, score := 0, total := 0, level := "Beginner" } : GameRecord).level =
      levelOf ({ id := 1, score := 0, total := 0, level := "Beginner" } : GameRecord).score :=
  c10_snapshot_consistent none [GameReq.get]
    { id := 1, score := 0, total := 0, level := "Beginner" } (by decide)

/-! ## Claim C6 -/

theorem scanSubmit_eq (clf : String → String × Rat) (db : ScanDB) (e : String) :
    scanSubmit clf db e =
      insertScan db e (clf (cleanTextS e)).1 (clf (cleanTextS e)).2 := by
  unfold scanSubmit
  rw [home_post_email]

theorem runScans_cons (clf : String → String × Rat) (e : String) (es : List String)
    (db : ScanDB) :
    runScans clf (e :: es) db = runScans clf es (scanSubmit clf db e) := rfl

theorem runScans_map_fields (clf : String → String × Rat) :
    ∀ (emails : List String) (db : ScanDB),
      (runScans clf emails db).rows.map (fun r => (r.email, r.result, r.confidence)) =
        db.rows.map (fun r => (r.email, r.result, r.confidence)) ++
          emails.map (fun e => (e, (clf (cleanTextS e)).1, (clf (cleanTextS e)).2)) := by
  intro emails
  induction emails with
  | nil => intro db; simp [runScans]
  | cons e es ih =>
    intro db
    rw [runScans_cons, ih, scanSubmit_eq]
    simp [insertScan]

theorem runScans_length (clf : String → String × Rat) (emails : List String) :
    (runScans clf emails scanDB0).rows.length = emails.length := by
  have h := congrArg List.length (runScans_map_fields clf emails scanDB0)
  simpa [scanDB0] using h

theorem scanInv_insert (db : ScanDB) (e res : String) (conf : Rat)
    (h1 : db.rows.Pairwise fun a b => a.id < b.id)
    (h2 : ∀ r ∈ db.rows, r.id < db.nextId) :
    ((insertScan db e res conf).rows.Pairwise fun a b => a.id < b.id) ∧
      ∀ r ∈ (insertScan db e res conf).rows, r.id < (insertScan db e res conf).nextId := by
  constructor
  · rw [insertScan, List.pairwise_append]
    refine ⟨h1, by simp, ?_⟩
    intro a ha b hb
    simp only [insertScan, List.mem_singleton] at hb
    rw [hb]
    exact h2 a ha
  · intro r hr
    simp only [insertScan, List.mem_append, List.mem_singleton] at hr
    rcases hr with hr1 | hr2
    · have := h2 r hr1
      simp only [insertScan]
      omega
    · rw [hr2]
      simp [insertScan]

theorem runScans_inv (clf : String → String × Rat) :
    ∀ (emails : List String) (db : ScanDB),
      (db.rows.Pairwise fun a b => a.id < b.id) →
      (∀ r ∈ db.rows, r.id < db.nextId) →
      (runScans clf emails db).rows.Pairwise fun a b => a.id < b.id := by
  intro emails
  induction emails with
  | nil => intro db h1 _; exact h1
  | cons e es ih =>
    intro db h1 h2
    rw [runScans_cons, scanSubmit_eq]
    have hstep := scanInv_insert db e (clf (cleanTextS e)).1 (clf (cleanTextS e)).2 h1 h2
    exact ih _ hstep.1 hstep.2

theorem insertByIdDesc_big (r : ScanRecord) :
    ∀ m : List ScanRecord, (∀ s ∈ m, r.id < s.id) → insertByIdDesc r m = m ++ [r] := by
  intro m
  induction m with
  | nil => intro _; rfl
  | cons s ms ih =>
    intro h
    have hs := h s (List.mem_cons_self _ _)
    simp only [insertByIdDesc]
    rw [if_neg (by omega), ih fun x hx => h x (List.mem_cons_of_mem _ hx)]
    rfl

theorem orderByIdDesc_eq_reverse :
    ∀ l : List ScanRecord, (l.Pairwise fun a b => a.id < b.id) →
      orderByIdDesc l = l.reverse := by
  intro l
  induction l with
  | nil => intro _; rfl
  | cons r rest ih =>
    intro h
    simp only [orderByIdDesc]
    rw [ih (List.pairwise_cons.1 h).2,
      insertByIdDesc_big r rest.reverse
        (fun s hs => (List.pairwise_cons.1 h).1 s (List.mem_reverse.1 hs)),
      List.reverse_cons]

/-- C6: every scan POST inserts exactly one row whose `email` field is the
original (unnormalized) submitted text, whose `result` is the predicted
label of the normalized text, and whose `confidence` is the confidence
value; after submitting `emails` the table holds exactly that many rows, in
submission order, and the `/history` listing (`ORDER BY id DESC`) is their
reverse. -/
theorem c6_scan_persistence (clf : String → String × Rat) (emails : List String) :
    (runScans clf emails scanDB0).rows.length = emails.length ∧
    (runScans clf emails scanDB0).rows.map (fun r => (r.email, r.result, r.confidence)) =
      emails.map (fun e => (e, (clf (cleanTextS e)).1, (clf (cleanTextS e)).2)) ∧
    historyQuery (runScans clf emails scanDB0) =
      ((runScans clf emails scanDB0).rows.map
        fun r => (r.email, r.result, r.confidence)).reverse := by
  refine ⟨runScans_length clf emails, ?_, ?_⟩
  · have h := runScans_map_fields clf emails scanDB0
    simpa [scanDB0] using h
  · unfold historyQuery
    rw [orderByIdDesc_eq_reverse _
      (runScans_inv clf emails scanDB0 (by simp [scanDB0]) (by simp [scanDB0])),
      List.map_reverse]

end PhishGuard
